import Mathlib

/-!
# Verification of the optimization-ex sliding-tile search program

Shallow embedding of the Go program in src/main.go: a square sliding-tile
board, the tile-difference scorer (DiffN), neighbor generation
(FindNeighbors, FindNeighborRand), hill-climbing search (MinDiffHC),
simulated annealing (AcceptCandidate, MinDiffSA) and the channel-based
trial orchestration of RunHillClimb / RunSimAnneal.

Modelling conventions:
* Go slices of int become Lean lists of Nat (all tile values are
  non-negative); a Board holds its declared size and its 2-d state.
* Go run-time panics (nil dereference, out-of-range make, mismatched
  board sizes in DiffN) are modelled as the none case of Option results.
* The shared pseudo-random generator is modelled by explicit streams:
  an index stream for rand.Intn, a sample stream for rand.Float64 and a
  permutation argument for rand.Perm.  Wall-clock time checks are a
  stream of booleans.  float64 arithmetic is idealised over the reals.
-/

/-- Embedding of the Go struct Board: size and 2-d state. -/
structure Board where
  size : Nat
  state : List (List Nat)
deriving DecidableEq, Repr

/-- Reading b.state[i][j]; out-of-range reads default to 0 (the Go code
only ever indexes in bounds, which the well-formedness predicate below
guarantees). -/
def Board.cell (b : Board) (i j : Nat) : Nat :=
  (b.state.getD i []).getD j 0

/-- The state is a size x size grid, the invariant every Go Board
constructor establishes. -/
def Board.WF (b : Board) : Prop :=
  b.state.length = b.size ∧ ∀ r ∈ b.state, r.length = b.size

instance (b : Board) : Decidable b.WF := by
  unfold Board.WF; infer_instance

/-- A valid board in the sense of the spec data model: a size x size grid
whose entries are exactly the tiles 0 .. size^2 - 1, each once. -/
def ValidBoard (b : Board) : Prop :=
  0 < b.size ∧ b.WF ∧ b.state.flatten.Perm (List.range (b.size * b.size))

instance (b : Board) : Decidable (ValidBoard b) := by
  unfold ValidBoard; exact instDecidableAnd

/-- Embedding of NewBoard: the canonical goal board, tile i*n+j at
row i, column j. -/
def NewBoard (n : Nat) : Board :=
  { size := n
    state := (List.range n).map fun i => (List.range n).map fun j => i * n + j }

/-- Embedding of NewBoardRand.  The Go code calls rand.Perm(n*n), whose
output is passed here explicitly as pieces, and slices it into rows
state[i] = pieces[i*n : i*n+n].  make([][]int, n) panics when n is
negative, modelled as none; n*n is never negative so rand.Perm itself
cannot panic. -/
def NewBoardRand (n : Int) (pieces : List Nat) : Option Board :=
  if n < 0 then none
  else
    some { size := n.toNat
           state := (List.range n.toNat).map fun i =>
             (pieces.drop (i * n.toNat)).take n.toNat }

/-- Row-major list of the grid coordinates of an n x n board, the order
the Go loops for i, for j visit them in. -/
def positions (n : Nat) : List (Nat × Nat) :=
  (List.range n).flatMap fun i => (List.range n).map fun j => (i, j)

/-- The cell predicate counted by DiffN: the receiver's cell is not the
blank 0 and disagrees with the target's cell. -/
def diffPred (b t : Board) (p : Nat × Nat) : Bool :=
  !(b.cell p.1 p.2 == 0) && (b.cell p.1 p.2 != t.cell p.1 p.2)

/-- The counting loop body of DiffN, transcribed from the Go nested for
loops: skip blank cells, count disagreeing cells. -/
def diffCount (b t : Board) : Nat :=
  (List.range b.size).foldl
    (fun c i =>
      (List.range b.size).foldl
        (fun c j =>
          if b.cell i j = 0 then c
          else if b.cell i j ≠ t.cell i j then c + 1 else c)
        c)
    0

/-- Embedding of DiffN.  The Go method panics when the sizes differ,
modelled as none. -/
def DiffN (b t : Board) : Option Nat :=
  if b.size = t.size then some (diffCount b t) else none

section CountLemmas

variable {α β : Type}

/-- A fold that conditionally increments a counter counts the elements
satisfying the predicate. -/
theorem foldl_count_incr (f : α → Bool) :
    ∀ (l : List α) (c : Nat),
      l.foldl (fun c a => if f a then c + 1 else c) c = c + l.countP f := by
  intro l
  induction l with
  | nil => intro c; simp
  | cons a l ih =>
      intro c
      by_cases h : f a
      · simp [List.foldl_cons, List.countP_cons, h, ih]
        omega
      · simp [List.foldl_cons, List.countP_cons, h, ih]

/-- A fold accumulating a sum of per-element contributions. -/
theorem foldl_add_sum (g : α → Nat) :
    ∀ (l : List α) (c : Nat),
      l.foldl (fun c a => c + g a) c = c + (l.map g).sum := by
  intro l
  induction l with
  | nil => intro c; simp
  | cons a l ih => intro c; simp [List.foldl_cons, ih]; omega

end CountLemmas

/-- The transcription of the Go counting loops agrees with the
declarative count over row-major positions. -/
theorem diffCount_eq_countP (b t : Board) :
    diffCount b t = (positions b.size).countP (diffPred b t) := by
  unfold diffCount positions
  have hinner : ∀ (i : Nat) (c : Nat),
      (List.range b.size).foldl
        (fun c j =>
          if b.cell i j = 0 then c
          else if b.cell i j ≠ t.cell i j then c + 1 else c) c
      = c + (List.range b.size).countP (fun j => diffPred b t (i, j)) := by
    intro i c
    have hfun : (fun c j =>
        if b.cell i j = 0 then c
        else if b.cell i j ≠ t.cell i j then c + 1 else c)
        = fun (c j : Nat) => if diffPred b t (i, j) then c + 1 else c := by
      funext c j
      by_cases h0 : b.cell i j = 0
      · simp [diffPred, h0]
      · by_cases hne : b.cell i j = t.cell i j
        · simp [diffPred, h0, hne]
        · simp [diffPred, h0, hne]
    rw [hfun, foldl_count_incr]
  have houter : (List.range b.size).foldl
      (fun c i =>
        (List.range b.size).foldl
          (fun c j =>
            if b.cell i j = 0 then c
            else if b.cell i j ≠ t.cell i j then c + 1 else c) c) 0
      = ((List.range b.size).map
          (fun i => (List.range b.size).countP (fun j => diffPred b t (i, j)))).sum := by
    have : (fun (c : Nat) (i : Nat) =>
        (List.range b.size).foldl
          (fun c j =>
            if b.cell i j = 0 then c
            else if b.cell i j ≠ t.cell i j then c + 1 else c) c)
        = fun c i => c + (List.range b.size).countP (fun j => diffPred b t (i, j)) := by
      funext c i; exact hinner i c
    rw [this, foldl_add_sum]
    simp
  rw [houter, List.countP_flatMap]
  congr 1
  refine List.map_congr_left ?_
  intro i _
  simp [List.countP_map, Function.comp_def]

/-- Membership in the row-major position list. -/
theorem mem_positions {n : Nat} {p : Nat × Nat} :
    p ∈ positions n ↔ p.1 < n ∧ p.2 < n := by
  unfold positions
  constructor
  · intro h
    rcases List.mem_flatMap.mp h with ⟨i, hi, hp⟩
    rcases List.mem_map.mp hp with ⟨j, hj, rfl⟩
    exact ⟨List.mem_range.mp hi, List.mem_range.mp hj⟩
  · intro ⟨h1, h2⟩
    refine List.mem_flatMap.mpr ⟨p.1, List.mem_range.mpr h1, ?_⟩
    exact List.mem_map.mpr ⟨p.2, List.mem_range.mpr h2, rfl⟩

/-- Reading every index of a list through getD reproduces the list. -/
theorem map_getD_range {α : Type} (d : α) :
    ∀ (l : List α), (List.range l.length).map (fun j => l.getD j d) = l := by
  intro l
  refine List.ext_getElem (by simp) ?_
  intro k h1 h2
  simp only [List.getElem_map, List.getElem_range]
  exact List.getD_eq_getElem l d h2

/-- On a well-formed board, reading all cells in row-major order yields
the flattened state. -/
theorem map_cell_positions (b : Board) (hb : b.WF) :
    (positions b.size).map (fun p => b.cell p.1 p.2) = b.state.flatten := by
  unfold positions
  rw [List.map_flatMap]
  have hrow : ∀ i ∈ List.range b.size,
      ((List.range b.size).map fun j => (i, j)).map (fun p : Nat × Nat => b.cell p.1 p.2)
      = b.state.getD i [] := by
    intro i hi
    rw [List.map_map]
    have hlen : (b.state.getD i []).length = b.size := by
      have hi' : i < b.state.length := by rw [hb.1]; exact List.mem_range.mp hi
      rw [List.getD_eq_getElem _ _ hi']
      exact hb.2 _ (List.getElem_mem hi')
    have := map_getD_range (0 : Nat) (b.state.getD i [])
    rw [hlen] at this
    simpa [Board.cell, Function.comp_def] using this
  calc ((List.range b.size).flatMap fun i =>
          ((List.range b.size).map fun j => (i, j)).map fun p : Nat × Nat => b.cell p.1 p.2)
      = (List.range b.size).flatMap (fun i => b.state.getD i []) := by
        rw [List.flatMap_def, List.flatMap_def]
        congr 1
        exact List.map_congr_left hrow
    _ = b.state.flatten := by
        rw [List.flatMap_def]
        have := map_getD_range ([] : List Nat) b.state
        rw [hb.1] at this
        rw [this]

/-- Counting cells with a given property equals counting over the
flattened state, on a well-formed board. -/
theorem countP_positions_cell (b : Board) (hb : b.WF) (f : Nat → Bool) :
    (positions b.size).countP (fun p => f (b.cell p.1 p.2))
      = b.state.flatten.countP f := by
  rw [← map_cell_positions b hb, List.countP_map]
  rfl

/-- Diffing a board against itself counts nothing. -/
theorem diffCount_self (b : Board) : diffCount b b = 0 := by
  rw [diffCount_eq_countP]
  apply List.countP_eq_zero.mpr
  intro p _
  simp [diffPred]

/-- Counting the non-blank entries of the tile range 0 .. m-1, m > 0:
all but the blank 0. -/
theorem countP_ne_zero_range {m : Nat} (hm : 0 < m) :
    (List.range m).countP (fun a => !(a == 0)) = m - 1 := by
  obtain ⟨k, rfl⟩ := Nat.exists_eq_add_of_lt hm
  rw [Nat.zero_add, List.range_succ_eq_map]
  rw [List.countP_cons, List.countP_map]
  have : ((fun a => !(a == 0)) ∘ Nat.succ) = fun _ => true := by
    funext a; simp
  rw [this]
  simp

/-- On a valid board the diff against any target is at most
size^2 - 1: every counted cell is a non-blank cell, and exactly one
cell holds the blank. -/
theorem diffCount_le_of_valid (b t : Board) (hb : ValidBoard b) :
    diffCount b t ≤ b.size * b.size - 1 := by
  rw [diffCount_eq_countP]
  have h1 : (positions b.size).countP (diffPred b t)
      ≤ (positions b.size).countP (fun p => !(b.cell p.1 p.2 == 0)) := by
    apply List.countP_mono_left
    intro p _ hp
    exact (Bool.and_eq_true _ _ |>.mp hp).1
  have h2 : (positions b.size).countP (fun p => !(b.cell p.1 p.2 == 0))
      = b.state.flatten.countP (fun a => !(a == 0)) :=
    countP_positions_cell b hb.2.1 (fun a => !(a == 0))
  have h3 : b.state.flatten.countP (fun a => !(a == 0))
      = (List.range (b.size * b.size)).countP (fun a => !(a == 0)) :=
    hb.2.2.countP_eq _
  have h4 : (List.range (b.size * b.size)).countP (fun a => !(a == 0))
      = b.size * b.size - 1 :=
    countP_ne_zero_range (Nat.mul_pos hb.1 hb.1)
  omega

/-- C1: for equal-size boards, DiffN returns the number of cells where
the receiver disagrees with the target, excluding cells where the
receiver holds the blank 0; DiffN of a board against itself is 0; and
on a valid board of size n the diff against any same-size target is at
most n^2 - 1 (and trivially at least 0). -/
theorem C1_diffN_spec :
    (∀ b t : Board, b.size = t.size →
      DiffN b t = some (((positions b.size).filter
        (fun p => !(b.cell p.1 p.2 == 0) && (b.cell p.1 p.2 != t.cell p.1 p.2))).length))
    ∧ (∀ b : Board, DiffN b b = some 0)
    ∧ (∀ b t : Board, ValidBoard b → b.size = t.size →
        ∀ d, DiffN b t = some d → d ≤ b.size * b.size - 1) := by
  refine ⟨?_, ?_, ?_⟩
  · intro b t hsize
    rw [DiffN, if_pos hsize, diffCount_eq_countP, List.countP_eq_length_filter]
    rfl
  · intro b
    rw [DiffN, if_pos rfl, diffCount_self]
  · intro b t hb hsize d hd
    rw [DiffN, if_pos hsize] at hd
    cases hd
    exact diffCount_le_of_valid b t hb

/-- Witness for C1 at concrete boards: the canonical 2 x 2 target, and a
start with the blank and tile 1 swapped. -/
theorem C1_diffN_spec_witness :
    DiffN { size := 2, state := [[1, 0], [2, 3]] } (NewBoard 2) = some 1 ∧
    DiffN (NewBoard 2) (NewBoard 2) = some 0 ∧
    1 ≤ 2 * 2 - 1 := by
  refine ⟨by decide, C1_diffN_spec.2.1 (NewBoard 2), ?_⟩
  have := C1_diffN_spec.2.2 { size := 2, state := [[1, 0], [2, 3]] } (NewBoard 2)
    (by decide) rfl 1 (by decide)
  omega

/-- Embedding of tileIndx: row-major scan returning the first cell
holding x, or none (Go returns -1, -1, false). -/
def tileIndx (b : Board) (x : Nat) : Option (Nat × Nat) :=
  (positions b.size).find? (fun p => b.cell p.1 p.2 == x)

/-- Writing b.state[i][j] = v.  Out-of-bounds writes are no-ops; the Go
code only writes in bounds. -/
def setCell (b : Board) (i j v : Nat) : Board :=
  { size := b.size, state := b.state.set i ((b.state.getD i []).set j v) }

/-- The copy-then-parallel-swap each branch of FindNeighbors performs:
the derived board holds b's (i2, j2) value at (i1, j1) and b's (i1, j1)
value at (i2, j2), all reads taken from the original b. -/
def swapCells (b : Board) (i1 j1 i2 j2 : Nat) : Board :=
  setCell (setCell b i1 j1 (b.cell i2 j2)) i2 j2 (b.cell i1 j1)

/-- Embedding of FindNeighbors: locate x, then for each direction that
stays in bounds, in the fixed order up, down, left, right, append the
swapped copy.  An absent tile yields the empty list (Go nil). -/
def FindNeighbors (b : Board) (x : Nat) : List Board :=
  match tileIndx b x with
  | none => []
  | some (i, j) =>
      (if 1 ≤ i then [swapCells b i j (i - 1) j] else []) ++
      (if i + 1 < b.size then [swapCells b i j (i + 1) j] else []) ++
      (if 1 ≤ j then [swapCells b i j i (j - 1)] else []) ++
      (if j + 1 < b.size then [swapCells b i j i (j + 1)] else [])

/-- Embedding of FindNeighborRand: Go draws rand.Intn(len ns), modelled
by reducing the supplied stream value modulo the length; an empty (nil)
neighbor list is returned as none. -/
def FindNeighborRand (b : Board) (x : Nat) (idx : Nat) : Option Board :=
  let ns := FindNeighbors b x
  if ns.isEmpty then none
  else ns[idx % ns.length]?

/-- The row-major position list has no duplicates. -/
theorem positions_nodup (n : Nat) : (positions n).Nodup := by
  have : positions n = List.product (List.range n) (List.range n) := rfl
  rw [this]
  exact List.Nodup.product (List.nodup_range n) (List.nodup_range n)

/-- Mapping two functions that agree except at two swapped points of a
duplicate-free list produces permuted images. -/
theorem map_swap_perm {α β : Type} [DecidableEq α] (l : List α) (hl : l.Nodup)
    (f g : α → β) (p1 p2 : α) (h1 : p1 ∈ l) (h2 : p2 ∈ l) (hne : p1 ≠ p2)
    (hf1 : f p1 = g p2) (hf2 : f p2 = g p1)
    (hother : ∀ a ∈ l, a ≠ p1 → a ≠ p2 → f a = g a) :
    (l.map f).Perm (l.map g) := by
  rw [← Multiset.coe_eq_coe, ← Multiset.map_coe, ← Multiset.map_coe]
  have hnd : (l : Multiset α).Nodup := Multiset.coe_nodup.mpr hl
  have h2' : p2 ∈ (l : Multiset α).erase p1 :=
    (Multiset.mem_erase_of_ne hne.symm).mpr h2
  set N : Multiset α := ((l : Multiset α).erase p1).erase p2 with hN
  have hsplit : (l : Multiset α) = p1 ::ₘ p2 ::ₘ N := by
    rw [hN, Multiset.cons_erase h2', Multiset.cons_erase h1]
  have hmem : ∀ a ∈ N, a ∈ (l : Multiset α) ∧ a ≠ p1 ∧ a ≠ p2 := by
    intro a ha
    have ha2 : a ∈ (l : Multiset α).erase p1 := Multiset.mem_of_mem_erase ha
    refine ⟨Multiset.mem_of_mem_erase ha2, ?_, ?_⟩
    · intro h; subst h
      exact hnd.not_mem_erase ha2
    · intro h; subst h
      exact (hnd.erase p1).not_mem_erase ha
  have hmaps : Multiset.map f N = Multiset.map g N := by
    refine Multiset.map_congr rfl ?_
    intro a ha
    obtain ⟨hal, hap1, hap2⟩ := hmem a ha
    exact hother a hal hap1 hap2
  rw [hsplit]
  simp only [Multiset.map_cons, hf1, hf2, hmaps]
  exact Multiset.cons_swap _ _ _

/-- setCell keeps the declared size. -/
theorem setCell_size (b : Board) (i j v : Nat) : (setCell b i j v).size = b.size := rfl

/-- swapCells keeps the declared size. -/
theorem swapCells_size (b : Board) (i1 j1 i2 j2 : Nat) :
    (swapCells b i1 j1 i2 j2).size = b.size := rfl

/-- setCell preserves well-formedness. -/
theorem setCell_WF (b : Board) (hb : b.WF) (i j v : Nat) : (setCell b i j v).WF := by
  obtain ⟨hlen, hrow⟩ := hb
  refine ⟨by simpa [setCell] using hlen, ?_⟩
  by_cases hi : i < b.state.length
  · intro r hr
    rcases List.mem_or_eq_of_mem_set hr with h | h
    · exact hrow r h
    · subst h
      rw [List.length_set, List.getD_eq_getElem _ _ hi]
      exact hrow _ (List.getElem_mem hi)
  · intro r hr
    rw [setCell] at hr
    simp only at hr
    rw [List.set_eq_of_length_le (Nat.le_of_not_lt hi)] at hr
    exact hrow r hr

/-- On a well-formed board every row read in bounds has full length. -/
theorem row_length (b : Board) (hb : b.WF) {i : Nat} (hi : i < b.size) :
    (b.state.getD i []).length = b.size := by
  have hi' : i < b.state.length := by rw [hb.1]; exact hi
  rw [List.getD_eq_getElem _ _ hi']
  exact hb.2 _ (List.getElem_mem hi')

/-- Reading a just-set index through getD. -/
theorem getD_set_eq {α : Type} (l : List α) {i : Nat} (a d : α) (hi : i < l.length) :
    (l.set i a).getD i d = a := by
  rw [List.getD_eq_getElem?_getD, List.getElem?_set_self hi]
  rfl

/-- Reading another index through getD is unaffected by set. -/
theorem getD_set_neq {α : Type} (l : List α) {i i' : Nat} (a d : α) (h : i ≠ i') :
    (l.set i a).getD i' d = l.getD i' d := by
  rw [List.getD_eq_getElem?_getD, List.getElem?_set_ne h,
    ← List.getD_eq_getElem?_getD]

/-- Reading back the cell just written. -/
theorem cell_setCell_self (b : Board) {i j : Nat} (v : Nat)
    (hi : i < b.state.length) (hj : j < (b.state.getD i []).length) :
    (setCell b i j v).cell i j = v := by
  unfold setCell Board.cell
  simp only
  rw [getD_set_eq _ _ _ hi, getD_set_eq _ _ _ hj]

/-- Reading any other cell is unaffected by the write. -/
theorem cell_setCell_ne (b : Board) {i j i' j' : Nat} (v : Nat)
    (h : i' ≠ i ∨ j' ≠ j) :
    (setCell b i j v).cell i' j' = b.cell i' j' := by
  unfold setCell Board.cell
  simp only
  rcases h with h | h
  · rw [getD_set_neq _ _ _ (Ne.symm h)]
  · by_cases hi' : i' = i
    · subst hi'
      by_cases hi : i' < b.state.length
      · rw [getD_set_eq _ _ _ hi, getD_set_neq _ _ _ (Ne.symm h)]
      · rw [List.set_eq_of_length_le (Nat.le_of_not_lt hi)]
    · rw [getD_set_neq _ _ _ (Ne.symm hi')]

/-- swapCells preserves well-formedness. -/
theorem swapCells_WF (b : Board) (hb : b.WF) (i1 j1 i2 j2 : Nat) :
    (swapCells b i1 j1 i2 j2).WF :=
  setCell_WF _ (setCell_WF b hb _ _ _) _ _ _

/-- The first swapped cell receives the second cell's value. -/
theorem cell_swapCells_fst (b : Board) (hb : b.WF) {i1 j1 i2 j2 : Nat}
    (hi1 : i1 < b.size) (hj1 : j1 < b.size)
    (hne : (i1, j1) ≠ (i2, j2)) :
    (swapCells b i1 j1 i2 j2).cell i1 j1 = b.cell i2 j2 := by
  unfold swapCells
  have hd : i1 ≠ i2 ∨ j1 ≠ j2 := by
    by_contra hcon
    push_neg at hcon
    exact hne (by rw [hcon.1, hcon.2])
  rw [cell_setCell_ne _ _ hd]
  exact cell_setCell_self b _ (by rw [hb.1]; exact hi1)
    (by rw [row_length b hb hi1]; exact hj1)

/-- The second swapped cell receives the first cell's value. -/
theorem cell_swapCells_snd (b : Board) (hb : b.WF) {i1 j1 i2 j2 : Nat}
    (hi2 : i2 < b.size) (hj2 : j2 < b.size) :
    (swapCells b i1 j1 i2 j2).cell i2 j2 = b.cell i1 j1 := by
  unfold swapCells
  have hwf : (setCell b i1 j1 (b.cell i2 j2)).WF := setCell_WF b hb _ _ _
  exact cell_setCell_self _ _ (by rw [hwf.1]; exact hi2)
    (by rw [row_length _ hwf hi2]; exact hj2)

/-- All other cells are untouched by the swap. -/
theorem cell_swapCells_other (b : Board) {i1 j1 i2 j2 i' j' : Nat}
    (h1 : (i', j') ≠ (i1, j1)) (h2 : (i', j') ≠ (i2, j2)) :
    (swapCells b i1 j1 i2 j2).cell i' j' = b.cell i' j' := by
  unfold swapCells
  have hd1 : i' ≠ i1 ∨ j' ≠ j1 := by
    by_contra hcon; push_neg at hcon; exact h1 (by rw [hcon.1, hcon.2])
  have hd2 : i' ≠ i2 ∨ j' ≠ j2 := by
    by_contra hcon; push_neg at hcon; exact h2 (by rw [hcon.1, hcon.2])
  rw [cell_setCell_ne _ _ hd2, cell_setCell_ne _ _ hd1]

/-- Swapping two in-bounds cells permutes the flattened state. -/
theorem swapCells_flatten_perm (b : Board) (hb : b.WF) {i1 j1 i2 j2 : Nat}
    (hi1 : i1 < b.size) (hj1 : j1 < b.size) (hi2 : i2 < b.size) (hj2 : j2 < b.size)
    (hne : (i1, j1) ≠ (i2, j2)) :
    (swapCells b i1 j1 i2 j2).state.flatten.Perm b.state.flatten := by
  have hwf' : (swapCells b i1 j1 i2 j2).WF := swapCells_WF b hb i1 j1 i2 j2
  have hsz : (swapCells b i1 j1 i2 j2).size = b.size := rfl
  rw [← map_cell_positions _ hwf', ← map_cell_positions b hb, hsz]
  refine map_swap_perm (positions b.size) (positions_nodup _)
    (fun p => (swapCells b i1 j1 i2 j2).cell p.1 p.2) (fun p => b.cell p.1 p.2)
    (i1, j1) (i2, j2)
    (mem_positions.mpr ⟨hi1, hj1⟩) (mem_positions.mpr ⟨hi2, hj2⟩) hne
    ?_ ?_ ?_
  · exact cell_swapCells_fst b hb hi1 hj1 hne
  · exact cell_swapCells_snd b hb hi2 hj2
  · intro p _ hp1 hp2
    exact cell_swapCells_other b (by simpa using hp1) (by simpa using hp2)

/-- What a successful tile scan guarantees: the coordinates are in
bounds and hold the sought value. -/
theorem tileIndx_some (b : Board) {x : Nat} {i j : Nat}
    (h : tileIndx b x = some (i, j)) :
    b.cell i j = x ∧ i < b.size ∧ j < b.size := by
  have hmem := List.mem_of_find?_eq_some h
  have hval := List.find?_some h
  refine ⟨by simpa using hval, ?_, ?_⟩
  · exact (mem_positions.mp hmem).1
  · exact (mem_positions.mp hmem).2

/-- A tile present on a well-formed board is always found. -/
theorem tileIndx_isSome (b : Board) (hb : b.WF) {x : Nat}
    (hx : x ∈ b.state.flatten) : (tileIndx b x).isSome := by
  rw [← map_cell_positions b hb] at hx
  rcases List.mem_map.mp hx with ⟨p, hp, heq⟩
  apply List.find?_isSome.mpr
  exact ⟨p, hp, by simpa using heq⟩

/-- Membership in an optional singleton produced by an if. -/
theorem mem_if_singleton {α : Type} {c : Prop} [Decidable c] {a x : α} :
    a ∈ (if c then [x] else []) ↔ c ∧ a = x := by
  split <;> simp_all

/-- On a valid board, distinct cells hold distinct tiles. -/
theorem cell_inj_of_valid (b : Board) (hv : ValidBoard b) {p q : Nat × Nat}
    (hp : p ∈ positions b.size) (hq : q ∈ positions b.size) (hne : p ≠ q) :
    b.cell p.1 p.2 ≠ b.cell q.1 q.2 := by
  have hnodupFlat : b.state.flatten.Nodup :=
    hv.2.2.nodup_iff.mpr (List.nodup_range _)
  have hmap : ((positions b.size).map (fun r => b.cell r.1 r.2)).Nodup := by
    rw [map_cell_positions b hv.2.1]; exact hnodupFlat
  intro hcells
  obtain ⟨ip, hip, hgetp⟩ := List.mem_iff_getElem.mp hp
  obtain ⟨iq, hiq, hgetq⟩ := List.mem_iff_getElem.mp hq
  have hlp : ip < ((positions b.size).map (fun r => b.cell r.1 r.2)).length := by
    simpa using hip
  have hlq : iq < ((positions b.size).map (fun r => b.cell r.1 r.2)).length := by
    simpa using hiq
  have : ((positions b.size).map (fun r => b.cell r.1 r.2))[ip] =
      ((positions b.size).map (fun r => b.cell r.1 r.2))[iq] := by
    simp only [List.getElem_map]
    rw [hgetp, hgetq]
    exact hcells
  have hidx : ip = iq := (hmap.getElem_inj_iff).mp this
  subst hidx
  exact hne (hgetp.symm.trans hgetq)

/-- Grid adjacency: same column and rows one apart, or same row and
columns one apart. -/
def adjacentCells (p q : Nat × Nat) : Prop :=
  (p.2 = q.2 ∧ (p.1 = q.1 + 1 ∨ q.1 = p.1 + 1)) ∨
  (p.1 = q.1 ∧ (p.2 = q.2 + 1 ∨ q.2 = p.2 + 1))

/-- The cells FindNeighbors swaps the located tile with, in the fixed
generation order up, down, left, right, skipping out-of-bounds
directions. -/
def neighborTargets (n i j : Nat) : List (Nat × Nat) :=
  (if 1 ≤ i then [(i - 1, j)] else []) ++
  (if i + 1 < n then [(i + 1, j)] else []) ++
  (if 1 ≤ j then [(i, j - 1)] else []) ++
  (if j + 1 < n then [(i, j + 1)] else [])

/-- FindNeighbors is exactly the swap against each target cell, in the
fixed direction order. -/
theorem findNeighbors_eq_map (b : Board) (x : Nat) {i j : Nat}
    (h : tileIndx b x = some (i, j)) :
    FindNeighbors b x
      = (neighborTargets b.size i j).map (fun q => swapCells b i j q.1 q.2) := by
  rw [FindNeighbors, h, neighborTargets]
  simp only [List.map_append,
    apply_ite (List.map (fun q : Nat × Nat => swapCells b i j q.1 q.2)),
    List.map_cons, List.map_nil]

/-- Each target cell is in bounds, adjacent to the located cell, and
distinct from it. -/
theorem neighborTargets_spec {n i j : Nat} (hi : i < n) (hj : j < n) :
    ∀ q ∈ neighborTargets n i j,
      q.1 < n ∧ q.2 < n ∧ adjacentCells (i, j) q ∧ (i, j) ≠ q := by
  intro q hq
  rw [neighborTargets] at hq
  rcases List.mem_append.mp hq with hq | hright
  rotate_left
  · rw [mem_if_singleton] at hright
    obtain ⟨hc, rfl⟩ := hright
    refine ⟨hi, hc, Or.inr ⟨rfl, Or.inr rfl⟩, ?_⟩
    intro heq; rw [Prod.mk.injEq] at heq; omega
  rcases List.mem_append.mp hq with hq | hleft
  rotate_left
  · rw [mem_if_singleton] at hleft
    obtain ⟨hc, rfl⟩ := hleft
    refine ⟨hi, by omega, Or.inr ⟨rfl, Or.inl (by omega)⟩, ?_⟩
    intro heq; rw [Prod.mk.injEq] at heq; omega
  rcases List.mem_append.mp hq with hup | hdown
  · rw [mem_if_singleton] at hup
    obtain ⟨hc, rfl⟩ := hup
    refine ⟨by omega, hj, Or.inl ⟨rfl, Or.inl (by omega)⟩, ?_⟩
    intro heq; rw [Prod.mk.injEq] at heq; omega
  · rw [mem_if_singleton] at hdown
    obtain ⟨hc, rfl⟩ := hdown
    refine ⟨hc, hj, Or.inl ⟨rfl, Or.inr rfl⟩, ?_⟩
    intro heq; rw [Prod.mk.injEq] at heq; omega

/-- The number of neighbor targets as a sum of direction indicators. -/
theorem neighborTargets_length (n i j : Nat) :
    (neighborTargets n i j).length
      = (if 1 ≤ i then 1 else 0) + (if i + 1 < n then 1 else 0)
        + (if 1 ≤ j then 1 else 0) + (if j + 1 < n then 1 else 0) := by
  unfold neighborTargets
  simp only [List.length_append]
  split_ifs <;> simp

/-- A corner cell of an n x n grid. -/
def isCorner (n i j : Nat) : Prop :=
  (i = 0 ∨ i = n - 1) ∧ (j = 0 ∨ j = n - 1)

/-- An interior cell: no coordinate on the boundary. -/
def isInterior (n i j : Nat) : Prop :=
  0 < i ∧ i + 1 < n ∧ 0 < j ∧ j + 1 < n

/-- An edge (non-corner boundary) cell: exactly one coordinate on the
boundary. -/
def isEdgeCell (n i j : Nat) : Prop :=
  ((i = 0 ∨ i = n - 1) ∧ 0 < j ∧ j + 1 < n) ∨
  ((j = 0 ∨ j = n - 1) ∧ 0 < i ∧ i + 1 < n)

instance (n i j : Nat) : Decidable (isCorner n i j) := by
  unfold isCorner; infer_instance

instance (n i j : Nat) : Decidable (isInterior n i j) := by
  unfold isInterior; infer_instance

instance (n i j : Nat) : Decidable (isEdgeCell n i j) := by
  unfold isEdgeCell; infer_instance

/-- C4, amended to boards of size at least 2: for a tile value present
on a valid board, FindNeighbors locates it at some in-bounds cell and
returns the boards obtained by swapping it with each in-bounds adjacent
cell in the fixed order up, down, left, right: 2 boards from a corner
cell, 3 from an edge cell, 4 from an interior cell (so always between 2
and 4); each returned board is a same-size permutation of the same
tiles that differs from the original exactly in the two swapped cells;
and for an absent tile value the result is empty. -/
theorem C4_findNeighbors_spec :
    (∀ (b : Board) (x : Nat), tileIndx b x = none → FindNeighbors b x = []) ∧
    (∀ (b : Board) (x : Nat), ValidBoard b → 2 ≤ b.size →
      x ∈ b.state.flatten →
      ∃ i j, tileIndx b x = some (i, j) ∧ i < b.size ∧ j < b.size ∧
        (2 ≤ (FindNeighbors b x).length ∧ (FindNeighbors b x).length ≤ 4) ∧
        (isCorner b.size i j → (FindNeighbors b x).length = 2) ∧
        (isEdgeCell b.size i j → (FindNeighbors b x).length = 3) ∧
        (isInterior b.size i j → (FindNeighbors b x).length = 4) ∧
        FindNeighbors b x
          = (neighborTargets b.size i j).map (fun q => swapCells b i j q.1 q.2) ∧
        (∀ nb ∈ FindNeighbors b x,
          nb.size = b.size ∧ nb.WF ∧ nb.state.flatten.Perm b.state.flatten ∧
          ∃ i2 j2, i2 < b.size ∧ j2 < b.size ∧ adjacentCells (i, j) (i2, j2) ∧
            nb.cell i j = b.cell i2 j2 ∧ nb.cell i2 j2 = b.cell i j ∧
            nb.cell i j ≠ b.cell i j ∧ nb.cell i2 j2 ≠ b.cell i2 j2 ∧
            (∀ i' j', (i', j') ≠ (i, j) → (i', j') ≠ (i2, j2) →
              nb.cell i' j' = b.cell i' j'))) := by
  constructor
  · intro b x h
    rw [FindNeighbors, h]
  · intro b x hv hsz hx
    obtain ⟨p, hp⟩ := Option.isSome_iff_exists.mp (tileIndx_isSome b hv.2.1 hx)
    obtain ⟨i, j⟩ := p
    obtain ⟨hcell, hi, hj⟩ := tileIndx_some b hp
    refine ⟨i, j, hp, hi, hj, ?_, ?_, ?_, ?_, findNeighbors_eq_map b x hp, ?_⟩
    · rw [findNeighbors_eq_map b x hp, List.length_map, neighborTargets_length]
      split_ifs <;> omega
    · intro hc
      rw [findNeighbors_eq_map b x hp, List.length_map, neighborTargets_length]
      obtain ⟨hci, hcj⟩ := hc
      split_ifs <;> omega
    · intro he
      rw [findNeighbors_eq_map b x hp, List.length_map, neighborTargets_length]
      rcases he with ⟨hei, hej⟩ | ⟨hej, hei⟩ <;> rcases hei with h1 | h1 <;>
        split_ifs <;> omega
    · intro hin
      rw [findNeighbors_eq_map b x hp, List.length_map, neighborTargets_length]
      obtain ⟨h1, h2, h3, h4⟩ := hin
      split_ifs <;> omega
    · intro nb hnb
      rw [findNeighbors_eq_map b x hp] at hnb
      obtain ⟨q, hq, rfl⟩ := List.mem_map.mp hnb
      obtain ⟨hq1, hq2, hadj, hqne⟩ := neighborTargets_spec hi hj q hq
      have hne : (i, j) ≠ (q.1, q.2) := by simpa using hqne
      have hvalne : b.cell q.1 q.2 ≠ b.cell i j :=
        cell_inj_of_valid b hv (mem_positions.mpr ⟨hq1, hq2⟩)
          (mem_positions.mpr ⟨hi, hj⟩) (by simpa using hqne.symm)
      refine ⟨rfl, swapCells_WF b hv.2.1 _ _ _ _,
        swapCells_flatten_perm b hv.2.1 hi hj hq1 hq2 hne,
        q.1, q.2, hq1, hq2, by simpa using hadj,
        cell_swapCells_fst b hv.2.1 hi hj hne,
        cell_swapCells_snd b hv.2.1 hq1 hq2, ?_, ?_, ?_⟩
      · rw [cell_swapCells_fst b hv.2.1 hi hj hne]
        exact hvalne
      · rw [cell_swapCells_snd b hv.2.1 hq1 hq2]
        exact fun h => hvalne h.symm
      · intro i' j' h1 h2
        exact cell_swapCells_other b h1 h2

/-- C4 counterexample to the claim as stated: on the valid 1 x 1 board
the blank tile 0 is present, yet FindNeighbors returns 0 boards, not
between 2 and 4. -/
theorem C4_findNeighbors_size_one_counterexample :
    ValidBoard { size := 1, state := [[0]] } ∧
    (0 : Nat) ∈ (Board.mk 1 [[0]]).state.flatten ∧
    FindNeighbors { size := 1, state := [[0]] } 0 = [] := by
  refine ⟨by decide, by decide, by decide⟩

/-- Witness for C4 on the canonical 2 x 2 board: the blank sits in a
corner, so exactly 2 neighbors come back. -/
theorem C4_findNeighbors_spec_witness :
    (FindNeighbors (NewBoard 2) 0).length = 2 := by
  obtain ⟨i, j, htile, hrest⟩ :=
    C4_findNeighbors_spec.2 (NewBoard 2) 0 (by decide) (by decide) (by decide)
  have h00 : tileIndx (NewBoard 2) 0 = some (0, 0) := by decide
  rw [h00] at htile
  obtain ⟨hi, hj⟩ : i = 0 ∧ j = 0 := by
    have := Option.some.inj htile
    exact ⟨congrArg Prod.fst this.symm, congrArg Prod.snd this.symm⟩
  subst hi; subst hj
  exact hrest.2.2.2.1 (by decide)

/-- The Go sentinel math.MaxInt32 that MinDiffHC initializes its running
minimum h with. -/
def maxInt32 : Nat := 2147483647

/-- The body of MinDiffHC's candidate loop: keep the candidate when its
diff is strictly below the best h so far. -/
def selStep (target : Board) (acc : Option Board × Nat) (c : Board) : Option Board × Nat :=
  if diffCount c target < acc.2 then (some c, diffCount c target) else acc

/-- The candidate scan of MinDiffHC: fold over the neighbor list keeping
the first board whose diff is strictly below the best so far, starting
from (nil, math.MaxInt32). -/
def selectMin (target : Board) (cs : List Board) : Option Board × Nat :=
  cs.foldl (selStep target) (none, maxInt32)

/-- Embedding of MinDiffHC, fuel-indexed (the Go loop has no iteration
cap; the termination theorem shows fuel size^2 suffices).  Returns the
diff value sent on the channel; none models exhausted fuel or a Go
panic.  The Go code panics inside DiffN when the sizes differ — every
board DiffN meets here has b's size, so the single guard is equivalent
— and dereferences a nil nextBoard if no candidate ever beat the
sentinel while h < currentH. -/
def MinDiffHC : Nat → Board → Board → Option Nat
  | 0, _, _ => none
  | Nat.succ fuel, b, target =>
    if b.size = target.size then
      let sel := selectMin target (FindNeighbors b 0)
      let currentH := diffCount b target
      if sel.2 ≥ currentH then some currentH
      else
        match sel.1 with
        | some nb => MinDiffHC fuel nb target
        | none => none
    else none

/-- Embedding of SimulatedAnnealParams.  MaxTime is modelled by the
timeUp stream handed to MinDiffSA (the wall-clock comparison result
after each temperature level). -/
structure SimulatedAnnealParams where
  Objective : Board
  TemperatureMin : ℝ
  Alpha : ℝ
  Iterations : Nat

/-- Embedding of AcceptCandidate: the Metropolis criterion.  u is the
rand.Float64() draw, consumed only on the non-improving path; float64
arithmetic is idealised over the reals. -/
noncomputable def AcceptCandidate (current candidate : Nat) (temp u : ℝ) : Bool :=
  if candidate < current then true
  else if temp = 0 then false
  else if u < Real.exp (-((candidate : ℝ) - (current : ℝ)) / temp) then true
  else false

/-- The mutable locals of MinDiffSA's loops. -/
structure SAState where
  board : Board
  currentDiff : Nat
  minDiff : Nat

/-- The emissions MinDiffSA performs on termination: minDiff first when
strictly below currentDiff, then always currentDiff. -/
def saEmit (st : SAState) : List Nat :=
  (if st.minDiff < st.currentDiff then [st.minDiff] else []) ++ [st.currentDiff]

/-- The inner iteration loop of MinDiffSA: draw a random neighbor of
the blank, score it, update the running minimum, and accept by the
Metropolis criterion.  pick and u are the rand.Intn index and
rand.Float64 streams, ctr the iteration counter indexing them; none
models the nil dereference when FindNeighborRand returns no board. -/
noncomputable def saInner (p : SimulatedAnnealParams) (pick : Nat → Nat) (u : Nat → ℝ)
    (t : ℝ) : Nat → Nat → SAState → Option (SAState × Nat)
  | 0, ctr, st => some (st, ctr)
  | Nat.succ k, ctr, st =>
    match FindNeighborRand st.board 0 (pick ctr) with
    | none => none
    | some candidateBoard =>
      let candidateDiff := diffCount candidateBoard p.Objective
      let minDiff := if candidateDiff < st.minDiff then candidateDiff else st.minDiff
      if AcceptCandidate st.currentDiff candidateDiff t (u ctr) then
        saInner p pick u t k (ctr + 1)
          { board := candidateBoard, currentDiff := candidateDiff, minDiff := minDiff }
      else
        saInner p pick u t k (ctr + 1)
          { board := st.board, currentDiff := st.currentDiff, minDiff := minDiff }

/-- The cooling loop of MinDiffSA, fuel-indexed (for Alpha ≥ 1 the Go
loop need not terminate).  After each temperature level t is multiplied
by Alpha and the wall clock is consulted (timeUp, indexed by the level
number); on either exit the final state and its emissions are returned. -/
noncomputable def saOuter (p : SimulatedAnnealParams) (pick : Nat → Nat) (u : Nat → ℝ)
    (timeUp : Nat → Bool) : Nat → ℝ → Nat → Nat → SAState → Option (SAState × List Nat)
  | 0, _, _, _, _ => none
  | Nat.succ fuel, t, ctr, level, st =>
    if t > p.TemperatureMin then
      match saInner p pick u t p.Iterations ctr st with
      | none => none
      | some (st2, ctr2) =>
        if timeUp level then some (st2, saEmit st2)
        else saOuter p pick u timeUp fuel (t * p.Alpha) ctr2 (level + 1) st2
    else some (st, saEmit st)

/-- Embedding of MinDiffSA: initial temperature 1.00, current and
minimum diff both the start board's diff against the objective.  The
final SAState is returned alongside the emitted values so theorems can
relate the two; the Go function only sends the emission list.  none
models a panic (nil candidate dereference, size-mismatch in DiffN) or
exhausted fuel. -/
noncomputable def MinDiffSA (b : Board) (p : SimulatedAnnealParams) (pick : Nat → Nat)
    (u : Nat → ℝ) (timeUp : Nat → Bool) (fuel : Nat) : Option (SAState × List Nat) :=
  if b.size = p.Objective.size then
    saOuter p pick u timeUp fuel 1 0 0
      { board := b, currentDiff := diffCount b p.Objective
        minDiff := diffCount b p.Objective }
  else none

/-- Events on the results channel: a producer's send or the
orchestrator's receive. -/
inductive ChanEv where
  | send : ChanEv
  | recv : ChanEv
deriving DecidableEq, Repr

/-- Number of sends in a trace. -/
def countSends : List ChanEv → Nat
  | [] => 0
  | ChanEv.send :: rest => countSends rest + 1
  | ChanEv.recv :: rest => countSends rest

/-- A trace of a bounded channel of capacity cap is block-free when
every send finds buffer room (fewer than cap values buffered) and every
receive finds a value; s and r count the sends and receives consumed so
far. -/
def chanOk (cap : Nat) : Nat → Nat → List ChanEv → Bool
  | _, _, [] => true
  | s, r, ChanEv.send :: rest => decide (s - r < cap) && chanOk cap (s + 1) r rest
  | s, r, ChanEv.recv :: rest => decide (r < s) && chanOk cap s (r + 1) rest

/-- The constants of RunHillClimb: n trials, a channel of capacity n,
and a drain loop of n receives. -/
def hcTrials : Nat := 5000000

/-- RunHillClimb's channel capacity: make(chan int, n). -/
def hcChanCap : Nat := hcTrials

/-- RunHillClimb's drain count: the receive loop runs n times. -/
def hcDrains : Nat := hcTrials

/-- The constants of RunSimAnneal: n trials, a channel of capacity n,
and a drain loop of n receives. -/
def saTrials : Nat := 100

/-- RunSimAnneal's channel capacity: make(chan int, n). -/
def saChanCap : Nat := saTrials

/-- RunSimAnneal's drain count: the receive loop runs n times. -/
def saDrains : Nat := saTrials

/-- C5: Metropolis acceptance.  An improving candidate is accepted for
every temperature and every drawn sample (probability 1); at
temperature 0 a non-improving candidate is rejected for every sample,
before any division; at positive temperature a non-improving candidate
is accepted exactly when the drawn uniform sample lies below
exp(-(candidateDiff - currentDiff) / t). -/
theorem C5_acceptCandidate_spec :
    (∀ (current candidate : Nat) (t u : ℝ), candidate < current →
      AcceptCandidate current candidate t u = true)
    ∧ (∀ (current candidate : Nat) (u : ℝ), current ≤ candidate →
      AcceptCandidate current candidate 0 u = false)
    ∧ (∀ (current candidate : Nat) (t u : ℝ), current ≤ candidate → 0 < t →
      (AcceptCandidate current candidate t u = true ↔
        u < Real.exp (-((candidate : ℝ) - (current : ℝ)) / t))) := by
  refine ⟨?_, ?_, ?_⟩
  · intro current candidate t u h
    rw [AcceptCandidate, if_pos h]
  · intro current candidate u h
    rw [AcceptCandidate, if_neg (by omega), if_pos rfl]
  · intro current candidate t u h ht
    rw [AcceptCandidate, if_neg (by omega), if_neg (ne_of_gt ht)]
    split <;> simp_all

/-- Witness for C5: accept an improvement at temperature 1/2, reject a
worsening at temperature 0, accept a worsening at temperature 2 when
the sample -1 lies below the (positive) exponential. -/
theorem C5_acceptCandidate_spec_witness :
    AcceptCandidate 5 3 (1 / 2) (7 / 10) = true ∧
    AcceptCandidate 3 5 0 (7 / 10) = false ∧
    AcceptCandidate 3 5 2 (-1) = true := by
  refine ⟨C5_acceptCandidate_spec.1 5 3 (1 / 2) (7 / 10) (by norm_num),
    C5_acceptCandidate_spec.2.1 3 5 (7 / 10) (by norm_num),
    (C5_acceptCandidate_spec.2.2 3 5 2 (-1) (by norm_num) (by norm_num)).mpr ?_⟩
  exact lt_trans (by norm_num) (Real.exp_pos _)

/-- A tile present on a valid board of size at least 2 always has at
least one in-bounds neighbor direction. -/
theorem findNeighbors_pos (b : Board) (hb : b.WF) (hsz : 2 ≤ b.size) {x : Nat}
    (hx : x ∈ b.state.flatten) : 0 < (FindNeighbors b x).length := by
  obtain ⟨p, hp⟩ := Option.isSome_iff_exists.mp (tileIndx_isSome b hb hx)
  obtain ⟨i, j⟩ := p
  obtain ⟨-, hi, hj⟩ := tileIndx_some b hp
  rw [findNeighbors_eq_map b x hp, List.length_map, neighborTargets_length]
  split_ifs <;> omega

/-- The blank 0 is present on every valid board. -/
theorem zero_mem_of_valid (b : Board) (hv : ValidBoard b) :
    (0 : Nat) ∈ b.state.flatten := by
  rw [hv.2.2.mem_iff]
  exact List.mem_range.mpr (Nat.mul_pos hv.1 hv.1)

/-- C9: on a valid board of size at least 2 the blank is present and
FindNeighborRand(0) always returns a board, so MinDiffSA's unchecked
dereference of the candidate is unreachable; when the sought tile is
absent FindNeighborRand returns nil (none); and on the 1 x 1 board the
blank is present yet FindNeighborRand returns nil, so MinDiffSA faults
there (modelled as none). -/
theorem C9_findNeighborRand_never_nil :
    (∀ (b : Board) (idx : Nat), ValidBoard b → 2 ≤ b.size →
      ∃ nb, FindNeighborRand b 0 idx = some nb)
    ∧ (∀ (b : Board) (x idx : Nat), tileIndx b x = none →
      FindNeighborRand b x idx = none)
    ∧ (∀ idx : Nat, FindNeighborRand { size := 1, state := [[0]] } 0 idx = none)
    ∧ MinDiffSA { size := 1, state := [[0]] }
        { Objective := { size := 1, state := [[0]] }, TemperatureMin := 0,
          Alpha := 1 / 2, Iterations := 1 }
        (fun _ => 0) (fun _ => 0) (fun _ => false) 1 = none := by
  have hempty : ∀ idx : Nat,
      FindNeighborRand { size := 1, state := [[0]] } 0 idx = none := by
    intro idx
    have h1 : FindNeighbors { size := 1, state := [[0]] } 0 = [] := by decide
    rw [FindNeighborRand]
    simp [h1]
  refine ⟨?_, ?_, hempty, ?_⟩
  · intro b idx hv hsz
    have hpos : 0 < (FindNeighbors b 0).length :=
      findNeighbors_pos b hv.2.1 hsz (zero_mem_of_valid b hv)
    rw [FindNeighborRand]
    simp only [List.isEmpty_iff]
    rw [if_neg (by intro h; rw [h] at hpos; simp at hpos)]
    exact ⟨_, List.getElem?_eq_some_iff.mpr ⟨Nat.mod_lt idx hpos, rfl⟩⟩
  · intro b x idx h
    rw [FindNeighborRand]
    simp [FindNeighbors, h]
  · rw [MinDiffSA, if_pos rfl]
    rw [show (1 : Nat) = Nat.succ 0 from rfl]
    rw [saOuter]
    rw [if_pos (by norm_num : (1 : ℝ) > 0)]
    have : saInner
        { Objective := { size := 1, state := [[0]] }, TemperatureMin := 0,
          Alpha := 1 / 2, Iterations := 1 }
        (fun _ => 0) (fun _ => 0) 1 1 0
        { board := { size := 1, state := [[0]] },
          currentDiff := diffCount { size := 1, state := [[0]] }
            { size := 1, state := [[0]] },
          minDiff := diffCount { size := 1, state := [[0]] }
            { size := 1, state := [[0]] } } = none := by
      rw [show (1 : Nat) = Nat.succ 0 from rfl, saInner]
      rw [hempty 0]
    rw [this]

/-- Witness for C9 on the canonical 2 x 2 board. -/
theorem C9_findNeighborRand_never_nil_witness :
    (FindNeighborRand (NewBoard 2) 0 5).isSome = true := by
  obtain ⟨nb, h⟩ :=
    C9_findNeighborRand_never_nil.1 (NewBoard 2) 5 (by decide) (by decide)
  rw [h]
  rfl

/-- The board has size * size cells. -/
theorem positions_length (n : Nat) : (positions n).length = n * n := by
  rw [positions, List.length_flatMap]
  have hrep : List.map (List.length ∘ fun i => (List.range n).map fun j => (i, j))
      (List.range n) = List.replicate n n := by
    refine List.eq_replicate_iff.mpr ⟨by simp, ?_⟩
    intro x hx
    rcases List.mem_map.mp hx with ⟨i, -, rfl⟩
    simp
  rw [hrep, List.sum_replicate, smul_eq_mul]

/-- Any diff is at most the number of cells. -/
theorem diffCount_le_sq (b t : Board) : diffCount b t ≤ b.size * b.size := by
  rw [diffCount_eq_countP]
  calc (positions b.size).countP (diffPred b t)
      ≤ (positions b.size).length := List.countP_le_length _
    _ = b.size * b.size := positions_length b.size

/-- Every board FindNeighbors returns is well-formed and of the same
size as its source. -/
theorem findNeighbors_mem (b : Board) (hb : b.WF) {x : Nat} {nb : Board}
    (hnb : nb ∈ FindNeighbors b x) : nb.WF ∧ nb.size = b.size := by
  cases h : tileIndx b x with
  | none => rw [FindNeighbors, h] at hnb; cases hnb
  | some p =>
      obtain ⟨i, j⟩ := p
      rw [findNeighbors_eq_map b x h] at hnb
      obtain ⟨q, -, rfl⟩ := List.mem_map.mp hnb
      exact ⟨swapCells_WF b hb _ _ _ _, rfl⟩

/-- Characterization of MinDiffHC's candidate fold from any starting
accumulator: the running best never rises, bounds every scanned diff,
stays put when nothing beat it, and otherwise lands on the first
candidate attaining the final best, every earlier candidate scoring
strictly worse. -/
theorem selFold_spec (target : Board) :
    ∀ (cs : List Board) (ob : Option Board) (h : Nat),
      (cs.foldl (selStep target) (ob, h)).2 ≤ h ∧
      (∀ c ∈ cs, (cs.foldl (selStep target) (ob, h)).2 ≤ diffCount c target) ∧
      ((cs.foldl (selStep target) (ob, h)).2 = h →
        (cs.foldl (selStep target) (ob, h)).1 = ob) ∧
      ((cs.foldl (selStep target) (ob, h)).2 < h →
        ∃ pre c post, cs = pre ++ c :: post ∧
          (cs.foldl (selStep target) (ob, h)).1 = some c ∧
          diffCount c target = (cs.foldl (selStep target) (ob, h)).2 ∧
          ∀ q ∈ pre, (cs.foldl (selStep target) (ob, h)).2 < diffCount q target) := by
  intro cs
  induction cs with
  | nil =>
      intro ob h
      refine ⟨le_refl _, by simp, fun _ => rfl, ?_⟩
      intro hlt
      exact absurd hlt (lt_irrefl h)
  | cons c cs ih =>
      intro ob h
      rw [List.foldl_cons]
      by_cases hc : diffCount c target < h
      · have hstep : selStep target (ob, h) c = (some c, diffCount c target) := by
          rw [selStep, if_pos hc]
        rw [hstep]
        obtain ⟨ih1, ih2, ih3, ih4⟩ := ih (some c) (diffCount c target)
        refine ⟨le_trans ih1 (le_of_lt hc), ?_, ?_, ?_⟩
        · intro q hq
          rcases List.mem_cons.mp hq with rfl | hq
          · exact ih1
          · exact ih2 q hq
        · intro heq
          exfalso
          omega
        · intro _
          by_cases heq :
              (cs.foldl (selStep target) (some c, diffCount c target)).2
                = diffCount c target
          · exact ⟨[], c, cs, by simp, ih3 heq, heq.symm, by simp⟩
          · have hlt2 :
                (cs.foldl (selStep target) (some c, diffCount c target)).2
                  < diffCount c target :=
              lt_of_le_of_ne ih1 heq
            obtain ⟨pre, w, post, hsplit, h1, h2, h3⟩ := ih4 hlt2
            refine ⟨c :: pre, w, post, by rw [hsplit]; rfl, h1, h2, ?_⟩
            intro q hq
            rcases List.mem_cons.mp hq with rfl | hq
            · exact hlt2
            · exact h3 q hq
      · have hstep : selStep target (ob, h) c = (ob, h) := by
          rw [selStep, if_neg hc]
        rw [hstep]
        obtain ⟨ih1, ih2, ih3, ih4⟩ := ih ob h
        refine ⟨ih1, ?_, ih3, ?_⟩
        · intro q hq
          rcases List.mem_cons.mp hq with rfl | hq
          · exact le_trans ih1 (le_of_not_lt hc)
          · exact ih2 q hq
        · intro hlt
          obtain ⟨pre, w, post, hsplit, h1, h2, h3⟩ := ih4 hlt
          refine ⟨c :: pre, w, post, by rw [hsplit]; rfl, h1, h2, ?_⟩
          intro q hq
          rcases List.mem_cons.mp hq with rfl | hq
          · exact lt_of_lt_of_le hlt (le_of_not_lt hc)
          · exact h3 q hq

/-- selectMin is the candidate fold from the sentinel accumulator. -/
theorem selectMin_eq_foldl (target : Board) (cs : List Board) :
    List.foldl (selStep target) (none, maxInt32) cs = selectMin target cs := rfl

/-- One unfolding of the MinDiffHC loop. -/
theorem minDiffHC_succ (fuel : Nat) (b target : Board) :
    MinDiffHC (fuel + 1) b target =
      if b.size = target.size then
        if (selectMin target (FindNeighbors b 0)).2 ≥ diffCount b target then
          some (diffCount b target)
        else
          match (selectMin target (FindNeighbors b 0)).1 with
          | some nb => MinDiffHC fuel nb target
          | none => none
      else none := rfl

/-- C2: each hill-climb step scores every neighbor of the blank against
the target, selects the first neighbor attaining the minimal diff (the
running best bounds every candidate's diff and is attained by the first
candidate scoring it, every earlier candidate scoring strictly worse),
emits the current diff and stops when that minimum is not strictly
below the current diff, and otherwise recurses on that neighbor. -/
theorem C2_minDiffHC_step (b target : Board) (fuel : Nat)
    (hsz : b.size = target.size) (hsmall : b.size * b.size ≤ maxInt32) :
    (∀ c ∈ FindNeighbors b 0,
      (selectMin target (FindNeighbors b 0)).2 ≤ diffCount c target) ∧
    ((selectMin target (FindNeighbors b 0)).2 < maxInt32 →
      ∃ pre c post, FindNeighbors b 0 = pre ++ c :: post ∧
        (selectMin target (FindNeighbors b 0)).1 = some c ∧
        diffCount c target = (selectMin target (FindNeighbors b 0)).2 ∧
        ∀ q ∈ pre,
          (selectMin target (FindNeighbors b 0)).2 < diffCount q target) ∧
    (diffCount b target ≤ (selectMin target (FindNeighbors b 0)).2 →
      MinDiffHC (fuel + 1) b target = some (diffCount b target)) ∧
    ((selectMin target (FindNeighbors b 0)).2 < diffCount b target →
      ∃ nb, (selectMin target (FindNeighbors b 0)).1 = some nb ∧
        diffCount nb target = (selectMin target (FindNeighbors b 0)).2 ∧
        MinDiffHC (fuel + 1) b target = MinDiffHC fuel nb target) := by
  obtain ⟨h1, h2, h3, h4⟩ := selFold_spec target (FindNeighbors b 0) none maxInt32
  refine ⟨h2, ?_, ?_, ?_⟩
  · intro hlt
    obtain ⟨pre, c, post, hs, hb1, hb2, hb3⟩ := h4 hlt
    exact ⟨pre, c, post, hs, hb1, hb2, hb3⟩
  · intro hge
    rw [minDiffHC_succ, if_pos hsz, if_pos hge]
  · intro hlt
    have hsel : (selectMin target (FindNeighbors b 0)).2 < maxInt32 := by
      have := diffCount_le_sq b target
      omega
    obtain ⟨pre, c, post, hs, hb1, hb2, hb3⟩ := h4 hsel
    refine ⟨c, hb1, hb2, ?_⟩
    rw [minDiffHC_succ, if_pos hsz, if_neg (by omega)]
    rw [show (selectMin target (FindNeighbors b 0)).1 = some c from hb1]

/-- Witness for C2 at a concrete step: from the 2 x 2 board with blank
and tile 1 swapped, the step moves to the goal board. -/
theorem C2_minDiffHC_step_witness :
    MinDiffHC 2 { size := 2, state := [[1, 0], [2, 3]] } (NewBoard 2)
      = MinDiffHC 1 { size := 2, state := [[0, 1], [2, 3]] } (NewBoard 2) := by
  obtain ⟨-, -, -, hmove⟩ :=
    C2_minDiffHC_step { size := 2, state := [[1, 0], [2, 3]] } (NewBoard 2) 1
      rfl (by decide)
  obtain ⟨nb, hnb, -, hrec⟩ := hmove (by decide)
  have hnbval : nb = { size := 2, state := [[0, 1], [2, 3]] } := by
    have hsel : (selectMin (NewBoard 2)
        (FindNeighbors { size := 2, state := [[1, 0], [2, 3]] } 0)).1
        = some { size := 2, state := [[0, 1], [2, 3]] } := by decide
    rw [hsel] at hnb
    exact (Option.some.inj hnb).symm
  rw [hrec, hnbval]

/-- C3: from any valid start board (against a same-size target, with the
board small enough that diffs stay below the MaxInt32 sentinel), each
taken move lands on a board of strictly smaller diff, and the search
run with fuel size^2 terminates, emitting a diff no larger than the
start diff (which is itself at most size^2 - 1). -/
theorem C3_minDiffHC_terminates :
    (∀ (b target : Board) (nb : Board),
      b.size = target.size → b.size * b.size ≤ maxInt32 →
      (selectMin target (FindNeighbors b 0)).2 < diffCount b target →
      (selectMin target (FindNeighbors b 0)).1 = some nb →
      diffCount nb target < diffCount b target)
    ∧ (∀ (b target : Board), ValidBoard b → b.size = target.size →
        b.size * b.size ≤ maxInt32 →
        ∃ r, MinDiffHC (b.size * b.size) b target = some r ∧
          r ≤ diffCount b target ∧ diffCount b target ≤ b.size * b.size - 1) := by
  have hstep : ∀ (b target : Board) (nb : Board),
      b.size * b.size ≤ maxInt32 →
      (selectMin target (FindNeighbors b 0)).2 < diffCount b target →
      (selectMin target (FindNeighbors b 0)).1 = some nb →
      diffCount nb target < diffCount b target := by
    intro b target nb hsmall hlt hnb
    obtain ⟨-, -, -, h4⟩ := selFold_spec target (FindNeighbors b 0) none maxInt32
    have hsel : (selectMin target (FindNeighbors b 0)).2 < maxInt32 := by
      have := diffCount_le_sq b target
      omega
    obtain ⟨pre, c, post, -, hb1, hb2, -⟩ := h4 hsel
    rw [selectMin_eq_foldl] at hb1 hb2
    have : nb = c := by
      have := hnb.symm.trans hb1
      exact Option.some.inj this
    subst this
    omega
  have hterm : ∀ (fuel : Nat) (b target : Board), b.WF →
      b.size = target.size → b.size * b.size ≤ maxInt32 →
      diffCount b target < fuel →
      ∃ r, MinDiffHC fuel b target = some r ∧ r ≤ diffCount b target := by
    intro fuel
    induction fuel with
    | zero => intro b target _ _ _ hd; omega
    | succ fuel ih =>
        intro b target hb hsz hsmall hd
        by_cases hge : diffCount b target ≤ (selectMin target (FindNeighbors b 0)).2
        · refine ⟨diffCount b target, ?_, le_refl _⟩
          rw [minDiffHC_succ, if_pos hsz, if_pos hge]
        · push_neg at hge
          obtain ⟨-, -, -, h4⟩ := selFold_spec target (FindNeighbors b 0) none maxInt32
          have hsel : (selectMin target (FindNeighbors b 0)).2 < maxInt32 := by
            have := diffCount_le_sq b target
            omega
          obtain ⟨pre, c, post, hsplit, hb1, hb2, -⟩ := h4 hsel
          rw [selectMin_eq_foldl] at hb1 hb2
          have hcmem : c ∈ FindNeighbors b 0 := by
            rw [hsplit]
            exact List.mem_append.mpr (Or.inr (List.mem_cons_self c post))
          obtain ⟨hcwf, hcsz⟩ := findNeighbors_mem b hb hcmem
          obtain ⟨r, hr, hrle⟩ := ih c target hcwf (hcsz.trans hsz)
            (by rw [hcsz]; exact hsmall) (by omega)
          refine ⟨r, ?_, by omega⟩
          rw [minDiffHC_succ, if_pos hsz, if_neg (by omega)]
          rw [show (selectMin target (FindNeighbors b 0)).1 = some c from hb1]
          exact hr
  refine ⟨fun b target nb hsz => hstep b target nb, ?_⟩
  intro b target hv hsz hsmall
  have hub : diffCount b target ≤ b.size * b.size - 1 :=
    diffCount_le_of_valid b target hv
  have hn : 0 < b.size := hv.1
  obtain ⟨r, hr, hrle⟩ := hterm (b.size * b.size) b target hv.2.1 hsz hsmall
    (by have := Nat.mul_pos hn hn; omega)
  exact ⟨r, hr, hrle, hub⟩

/-- Witness for C3: the 2 x 2 start one move from the goal terminates
within fuel 4 at diff 0. -/
theorem C3_minDiffHC_terminates_witness :
    MinDiffHC 4 { size := 2, state := [[1, 0], [2, 3]] } (NewBoard 2) = some 0 := by
  obtain ⟨r, hr, hrle, -⟩ :=
    C3_minDiffHC_terminates.2 { size := 2, state := [[1, 0], [2, 3]] } (NewBoard 2)
      (by decide) rfl (by decide)
  have hr4 : MinDiffHC 4 { size := 2, state := [[1, 0], [2, 3]] } (NewBoard 2)
      = some r := hr
  have hd : diffCount { size := 2, state := [[1, 0], [2, 3]] } (NewBoard 2) = 1 := by
    decide
  rw [hd] at hrle
  interval_cases r
  · exact hr4
  · exfalso
    have : MinDiffHC 4 { size := 2, state := [[1, 0], [2, 3]] } (NewBoard 2)
        = some 0 := by decide
    rw [this] at hr4
    exact absurd (Option.some.inj hr4) (by decide)

/-- The inner annealing loop keeps the running minimum at or below the
current diff. -/
theorem saInner_min_le (p : SimulatedAnnealParams) (pick : Nat → Nat) (u : Nat → ℝ)
    (t : ℝ) :
    ∀ (k ctr : Nat) (st : SAState), st.minDiff ≤ st.currentDiff →
      ∀ (st2 : SAState) (ctr2 : Nat),
        saInner p pick u t k ctr st = some (st2, ctr2) →
        st2.minDiff ≤ st2.currentDiff := by
  intro k
  induction k with
  | zero =>
      intro ctr st hle st2 ctr2 hrun
      rw [saInner] at hrun
      obtain ⟨rfl, -⟩ : st = st2 ∧ ctr = ctr2 := by
        have := Option.some.inj hrun
        exact ⟨congrArg Prod.fst this, congrArg Prod.snd this⟩
      exact hle
  | succ k ih =>
      intro ctr st hle st2 ctr2 hrun
      rw [saInner] at hrun
      cases hfr : FindNeighborRand st.board 0 (pick ctr) with
      | none => rw [hfr] at hrun; cases hrun
      | some cb =>
          rw [hfr] at hrun
          simp only at hrun
          by_cases hacc :
              AcceptCandidate st.currentDiff (diffCount cb p.Objective) t (u ctr) = true
          · rw [if_pos hacc] at hrun
            refine ih (ctr + 1) _ ?_ st2 ctr2 hrun
            simp only
            split <;> omega
          · rw [if_neg hacc] at hrun
            refine ih (ctr + 1) _ ?_ st2 ctr2 hrun
            simp only
            split <;> omega

/-- On every successful exit, the cooling loop emits exactly the
emission list of its final state, and the running-minimum invariant is
preserved. -/
theorem saOuter_emit (p : SimulatedAnnealParams) (pick : Nat → Nat) (u : Nat → ℝ)
    (timeUp : Nat → Bool) :
    ∀ (fuel : Nat) (t : ℝ) (ctr level : Nat) (st : SAState),
      st.minDiff ≤ st.currentDiff →
      ∀ (st2 : SAState) (out : List Nat),
        saOuter p pick u timeUp fuel t ctr level st = some (st2, out) →
        out = saEmit st2 ∧ st2.minDiff ≤ st2.currentDiff := by
  intro fuel
  induction fuel with
  | zero => intro t ctr level st hle st2 out hrun; rw [saOuter] at hrun; cases hrun
  | succ fuel ih =>
      intro t ctr level st hle st2 out hrun
      rw [saOuter] at hrun
      by_cases ht : t > p.TemperatureMin
      · rw [if_pos ht] at hrun
        cases hin : saInner p pick u t p.Iterations ctr st with
        | none => rw [hin] at hrun; cases hrun
        | some pr =>
            obtain ⟨stI, ctrI⟩ := pr
            have hleI : stI.minDiff ≤ stI.currentDiff :=
              saInner_min_le p pick u t p.Iterations ctr st hle stI ctrI hin
            rw [hin] at hrun
            simp only at hrun
            by_cases htu : timeUp level = true
            · rw [if_pos htu] at hrun
              have := Option.some.inj hrun
              refine ⟨?_, ?_⟩
              · have h2 := congrArg Prod.snd this
                have h1 := congrArg Prod.fst this
                simp only at h1 h2
                rw [← h2, ← h1]
              · have h1 := congrArg Prod.fst this
                simp only at h1
                rw [← h1]
                exact hleI
            · rw [if_neg htu] at hrun
              exact ih (t * p.Alpha) ctrI (level + 1) stI hleI st2 out hrun
      · rw [if_neg ht] at hrun
        have := Option.some.inj hrun
        have h1 := congrArg Prod.fst this
        have h2 := congrArg Prod.snd this
        simp only at h1 h2
        constructor
        · rw [← h2, ← h1]
        · rw [← h1]; exact hle

/-- C6: whenever MinDiffSA terminates (cooling completed or the time
budget tripped), it emits the running minimum diff exactly when that
minimum is strictly below the final current diff, followed always by
the final current diff: one emitted value when they coincide, two (the
minimum first) when the minimum is strictly smaller.  The running
minimum never exceeds the final current diff. -/
theorem C6_minDiffSA_emissions (b : Board) (p : SimulatedAnnealParams)
    (pick : Nat → Nat) (u : Nat → ℝ) (timeUp : Nat → Bool) (fuel : Nat)
    (st : SAState) (out : List Nat)
    (hrun : MinDiffSA b p pick u timeUp fuel = some (st, out)) :
    st.minDiff ≤ st.currentDiff ∧
    out = (if st.minDiff < st.currentDiff then [st.minDiff, st.currentDiff]
           else [st.currentDiff]) ∧
    (st.minDiff < st.currentDiff → out.length = 2) ∧
    (st.minDiff = st.currentDiff → out.length = 1) := by
  rw [MinDiffSA] at hrun
  by_cases hsz : b.size = p.Objective.size
  · rw [if_pos hsz] at hrun
    obtain ⟨hout, hle⟩ := saOuter_emit p pick u timeUp fuel 1 0 0 _
      (le_refl _) st out hrun
    refine ⟨hle, ?_, ?_, ?_⟩
    · rw [hout, saEmit]
      split <;> simp
    · intro hlt
      rw [hout, saEmit, if_pos hlt]
      rfl
    · intro heq
      rw [hout, saEmit, if_neg (by omega)]
      rfl
  · rw [if_neg hsz] at hrun
    cases hrun

/-- Witness for C6: with Iterations 0 and the cooling threshold above
the initial temperature, the search exits at once with min = current,
emitting exactly one value. -/
theorem C6_minDiffSA_emissions_witness :
    MinDiffSA (NewBoard 2)
      { Objective := NewBoard 2, TemperatureMin := 2, Alpha := 1 / 2, Iterations := 0 }
      (fun _ => 0) (fun _ => 0) (fun _ => false) 1
      = some ({ board := NewBoard 2, currentDiff := 0, minDiff := 0 }, [0]) ∧
    ([0] : List Nat).length = 1 := by
  have hrun : MinDiffSA (NewBoard 2)
      { Objective := NewBoard 2, TemperatureMin := 2, Alpha := 1 / 2, Iterations := 0 }
      (fun _ => 0) (fun _ => 0) (fun _ => false) 1
      = some ({ board := NewBoard 2, currentDiff := 0, minDiff := 0 }, [0]) := by
    rw [MinDiffSA, if_pos rfl]
    show saOuter _ _ _ _ (Nat.succ 0) 1 0 0
      { board := NewBoard 2, currentDiff := 0, minDiff := 0 } = _
    rw [saOuter]
    rw [if_neg (by norm_num : ¬((1 : ℝ) > 2))]
    rfl
  exact ⟨hrun, (C6_minDiffSA_emissions _ _ _ _ _ _ _ _ hrun).2.2.2 rfl⟩

/-- A concrete simulated-annealing run that emits two values: starting
at the goal, one inner iteration accepts a worse neighbor (sample -1
always accepted), so the running minimum 0 stays below the final
current diff 1 and both are emitted. -/
theorem saTwoEmission :
    MinDiffSA (NewBoard 2)
      { Objective := NewBoard 2, TemperatureMin := 1 / 2, Alpha := 1 / 2,
        Iterations := 1 }
      (fun _ => 0) (fun _ => (-1 : ℝ)) (fun _ => false) 2
      = some ({ board := { size := 2, state := [[2, 1], [0, 3]] },
                currentDiff := 1, minDiff := 0 }, [0, 1]) := by
  have hacc : AcceptCandidate 0 1 1 (-1) = true := by
    rw [AcceptCandidate, if_neg (by omega), if_neg (by norm_num)]
    rw [if_pos (lt_trans (by norm_num) (Real.exp_pos _))]
  have hfnr : FindNeighborRand (NewBoard 2) 0 0
      = some { size := 2, state := [[2, 1], [0, 3]] } := by decide
  have hcd : diffCount { size := 2, state := [[2, 1], [0, 3]] } (NewBoard 2) = 1 := by
    decide
  have hinner : saInner
      { Objective := NewBoard 2, TemperatureMin := 1 / 2, Alpha := 1 / 2,
        Iterations := 1 }
      (fun _ => 0) (fun _ => (-1 : ℝ)) 1 1 0
      { board := NewBoard 2, currentDiff := 0, minDiff := 0 }
      = some ({ board := { size := 2, state := [[2, 1], [0, 3]] },
                currentDiff := 1, minDiff := 0 }, 1) := by
    show saInner _ _ _ _ (Nat.succ 0) 0 _ = _
    rw [saInner]
    simp only [hfnr, hcd, hacc]
    rw [if_pos trivial]
    rw [saInner]
    rfl
  rw [MinDiffSA, if_pos rfl]
  show saOuter _ _ _ _ (Nat.succ (Nat.succ 0)) 1 0 0
    { board := NewBoard 2, currentDiff := 0, minDiff := 0 } = _
  rw [saOuter]
  rw [if_pos (by norm_num : (1 : ℝ) > 1 / 2)]
  simp only [hinner]
  rw [if_neg (by simp : ¬((fun _ : Nat => false) 0 = true))]
  rw [saOuter]
  rw [if_neg (by norm_num : ¬((1 : ℝ) * (1 / 2) > 1 / 2))]
  rfl

/-- Receive validity of a trace: every receive finds a value already
sent (s and r count prior sends and receives). -/
def recvOk : Nat → Nat → List ChanEv → Bool
  | _, _, [] => true
  | s, r, ChanEv.send :: rest => recvOk (s + 1) r rest
  | s, r, ChanEv.recv :: rest => decide (r < s) && recvOk s (r + 1) rest

/-- If a valid trace carries at most cap sends beyond the current
buffer occupancy, no send ever finds the buffer full. -/
theorem chanOk_of_sends_le (cap : Nat) :
    ∀ (tr : List ChanEv) (s r : Nat), recvOk s r tr = true → r ≤ s →
      s - r + countSends tr ≤ cap → chanOk cap s r tr = true := by
  intro tr
  induction tr with
  | nil => intro s r _ _ _; rfl
  | cons e rest ih =>
      intro s r hrv hrs hcap
      cases e with
      | send =>
          rw [chanOk, Bool.and_eq_true]
          rw [countSends] at hcap
          rw [recvOk] at hrv
          refine ⟨decide_eq_true (by omega), ?_⟩
          exact ih (s + 1) r hrv (by omega) (by omega)
      | recv =>
          rw [chanOk, Bool.and_eq_true]
          rw [countSends] at hcap
          rw [recvOk, Bool.and_eq_true] at hrv
          obtain ⟨h1, h2⟩ := hrv
          have hlt : r < s := of_decide_eq_true h1
          refine ⟨h1, ?_⟩
          exact ih s (r + 1) h2 (by omega) (by omega)

/-- One histogram increment per drained value: the bucket counts of any
drained list sum to its length. -/
theorem drain_histogram_total (received : List Nat) :
    ∑ d in received.toFinset, received.count d = received.length := by
  simp

/-- C7 amended: both orchestrators drain exactly N values, one
histogram increment per drained value (bucket counts sum to N).  For
hill-climbing, where every trial emits exactly one value, any valid
schedule carries at most N sends on a channel of capacity N, so no
producer ever finds the buffer full.  For simulated annealing the
channel capacity equals N but the trials can emit up to 2N values, and
a schedule of N+1 sends before any receive blocks. -/
theorem C7_channel_drain_spec :
    (∀ received : List Nat, received.length = hcDrains →
      ∑ d in received.toFinset, received.count d = hcDrains) ∧
    (∀ received : List Nat, received.length = saDrains →
      ∑ d in received.toFinset, received.count d = saDrains) ∧
    (∀ tr : List ChanEv, recvOk 0 0 tr = true → countSends tr ≤ hcTrials →
      chanOk hcChanCap 0 0 tr = true) ∧
    (saChanCap < 2 * saTrials ∧
      chanOk saChanCap 0 0 (List.replicate (saTrials + 1) ChanEv.send) = false) := by
  refine ⟨?_, ?_, ?_, by decide, by decide⟩
  · intro received hlen
    rw [← hlen]
    exact drain_histogram_total received
  · intro received hlen
    rw [← hlen]
    exact drain_histogram_total received
  · intro tr hrv hsends
    have hcap : hcChanCap = hcTrials := rfl
    exact chanOk_of_sends_le hcChanCap tr 0 0 hrv (le_refl 0) (by omega)

/-- C7 counterexample to the claim as stated: a simulated-annealing
trial can emit two values (concrete run below), so the 100 trials of
RunSimAnneal can produce 101 or more sends, and 101 sends before any
receive exceed the channel capacity 100 — a producer blocks. -/
theorem C7_channel_counterexample :
    MinDiffSA (NewBoard 2)
      { Objective := NewBoard 2, TemperatureMin := 1 / 2, Alpha := 1 / 2,
        Iterations := 1 }
      (fun _ => 0) (fun _ => (-1 : ℝ)) (fun _ => false) 2
      = some ({ board := { size := 2, state := [[2, 1], [0, 3]] },
                currentDiff := 1, minDiff := 0 }, [0, 1]) ∧
    ([0, 1] : List Nat).length = 2 ∧
    saTrials + 1 ≤ 2 * saTrials ∧
    chanOk saChanCap 0 0 (List.replicate (saTrials + 1) ChanEv.send) = false := by
  exact ⟨saTwoEmission, rfl, by decide, by decide⟩

/-- Witness for C7: a 100-value drain has bucket counts summing to 100,
and a single send on the hill-climb channel never blocks. -/
theorem C7_channel_drain_spec_witness :
    (∑ d in (List.replicate 100 (0 : Nat)).toFinset,
      (List.replicate 100 (0 : Nat)).count d = saDrains) ∧
    chanOk hcChanCap 0 0 [ChanEv.send] = true := by
  exact ⟨C7_channel_drain_spec.2.1 (List.replicate 100 0) (by decide),
    C7_channel_drain_spec.2.2.1 [ChanEv.send] (by decide) (by decide)⟩

/-- Slicing a list into k consecutive chunks of width n and flattening
them back yields the first k*n elements. -/
theorem flatten_chunks {α : Type} (n : Nat) (l : List α) :
    ∀ k : Nat, ((List.range k).map fun i => (l.drop (i * n)).take n).flatten
      = l.take (k * n) := by
  intro k
  induction k with
  | zero => simp
  | succ k ih =>
      rw [List.range_succ, List.map_append, List.flatten_append, ih]
      simp only [List.map_cons, List.map_nil, List.flatten_cons, List.flatten_nil,
        List.append_nil]
      rw [show (k + 1) * n = k * n + n by ring, List.take_add]

/-- C8 amended: NewBoardRand fails exactly for negative sizes (the
make call panics there; size 0 succeeds with an empty board), and for
every positive size, fed any permutation of the tiles (rand.Perm's
output), it returns the board whose rows slice that permutation — a
valid permutation board. -/
theorem C8_newBoardRand_spec :
    (∀ (n : Int) (pieces : List Nat), NewBoardRand n pieces = none ↔ n < 0) ∧
    (∀ (n : Int) (pieces : List Nat), 0 < n →
      pieces.Perm (List.range (n.toNat * n.toNat)) →
      ∃ bd, NewBoardRand n pieces = some bd ∧ bd.size = n.toNat ∧
        bd.state.flatten = pieces ∧ ValidBoard bd) := by
  constructor
  · intro n pieces
    rw [NewBoardRand]
    split
    · simp_all
    · simp_all
  · intro n pieces hn hperm
    have hn0 : ¬ n < 0 := by omega
    have hlen : pieces.length = n.toNat * n.toNat := by
      simpa using hperm.length_eq
    have hflat : ((List.range n.toNat).map fun i =>
        (pieces.drop (i * n.toNat)).take n.toNat).flatten = pieces := by
      rw [flatten_chunks n.toNat pieces n.toNat, ← hlen, List.take_length]
    refine ⟨{ size := n.toNat
              state := (List.range n.toNat).map fun i =>
                (pieces.drop (i * n.toNat)).take n.toNat },
      by rw [NewBoardRand, if_neg hn0], rfl, hflat, ?_⟩
    refine ⟨by show 0 < n.toNat; omega, ⟨by simp, ?_⟩, ?_⟩
    · intro r hr
      rcases List.mem_map.mp hr with ⟨i, hi, rfl⟩
      have hi' : i < n.toNat := List.mem_range.mp hi
      have h3 : i * n.toNat + n.toNat ≤ n.toNat * n.toNat := by
        have h2 := Nat.mul_le_mul_right n.toNat hi'
        rw [Nat.succ_mul] at h2
        exact h2
      show ((pieces.drop (i * n.toNat)).take n.toNat).length = n.toNat
      rw [List.length_take, List.length_drop, hlen]
      omega
    · rw [hflat]
      exact hperm

/-- C8 counterexample to the claim as stated: at size 0 the claim
predicts failure, but the code succeeds, returning the empty board. -/
theorem C8_newBoardRand_zero_counterexample :
    NewBoardRand 0 [] = some { size := 0, state := [] } ∧ (0 : Int) ≤ 0 := by
  constructor
  · rw [NewBoardRand, if_neg (by omega)]
    rfl
  · exact le_refl 0

/-- Witness for C8: size 2 with the drawn permutation 3,1,0,2 yields
the valid board [[3,1],[0,2]]. -/
theorem C8_newBoardRand_spec_witness :
    NewBoardRand 2 [3, 1, 0, 2] = some { size := 2, state := [[3, 1], [0, 2]] } ∧
    ValidBoard { size := 2, state := [[3, 1], [0, 2]] } := by
  obtain ⟨bd, h1, -, -, h4⟩ :=
    C8_newBoardRand_spec.2 2 [3, 1, 0, 2] (by norm_num) (by decide)
  have heq : NewBoardRand 2 [3, 1, 0, 2]
      = some { size := 2, state := [[3, 1], [0, 2]] } := by decide
  rw [heq] at h1
  have hbd : bd = { size := 2, state := [[3, 1], [0, 2]] } := (Option.some.inj h1).symm
  exact ⟨heq, hbd ▸ h4⟩

/-- Splitting a conjunction count over the first conjunct. -/
theorem countP_and_split {α : Type} (p q : α → Bool) (l : List α) :
    l.countP (fun x => p x && q x) + l.countP (fun x => !p x && q x)
      = l.countP q := by
  induction l with
  | nil => rfl
  | cons a l ih =>
      simp only [List.countP_cons]
      cases hp : p a <;> cases hq : q a <;> simp [hp, hq] <;> omega

/-- A count over a duplicate-free list whose predicate can hold only at
one designated member is that member's indicator. -/
theorem countP_eq_single {α : Type} (l : List α) (hl : l.Nodup) (p : α → Bool)
    (a : α) (ha : a ∈ l) (hother : ∀ x ∈ l, x ≠ a → p x = false) :
    l.countP p = if p a then 1 else 0 := by
  induction l with
  | nil => cases ha
  | cons x l ih =>
      rw [List.countP_cons]
      rcases List.mem_cons.mp ha with rfl | hal
      · have hl0 : l.countP p = 0 := by
          apply List.countP_eq_zero.mpr
          intro y hy
          have hyne : y ≠ a := by
            intro h; subst h
            exact (List.nodup_cons.mp hl).1 hy
          rw [hother y (List.mem_cons_of_mem _ hy) hyne]
          simp
        rw [hl0]
        split <;> simp
      · have hx : p x = false := by
          apply hother x (List.mem_cons_self x l)
          intro h; subst h
          exact (List.nodup_cons.mp hl).1 hal
        rw [hx, ih (List.nodup_cons.mp hl).2 hal]
        · simp
        · intro y hy hyne
          exact hother y (List.mem_cons_of_mem _ hy) hyne

/-- On valid boards of equal size the diff scorer is symmetric: the
mismatch at each board's own blank cell is excluded on each side, and
when the blanks sit at different cells each side excludes exactly one
mismatched cell, so the counts agree. -/
theorem diffCount_comm_of_valid (B T : Board) (hB : ValidBoard B)
    (hT : ValidBoard T) (hsz : B.size = T.size) :
    diffCount B T = diffCount T B := by
  obtain ⟨pB, hpB⟩ :=
    Option.isSome_iff_exists.mp (tileIndx_isSome B hB.2.1 (zero_mem_of_valid B hB))
  obtain ⟨bi, bj⟩ := pB
  obtain ⟨pT, hpT⟩ :=
    Option.isSome_iff_exists.mp (tileIndx_isSome T hT.2.1 (zero_mem_of_valid T hT))
  obtain ⟨ti, tj⟩ := pT
  obtain ⟨hBcell, hBi, hBj⟩ := tileIndx_some B hpB
  obtain ⟨hTcell, hTi, hTj⟩ := tileIndx_some T hpT
  have hLT : positions T.size = positions B.size := by rw [hsz]
  have hBmem : (bi, bj) ∈ positions B.size := mem_positions.mpr ⟨hBi, hBj⟩
  have hTmem : (ti, tj) ∈ positions B.size := by
    rw [← hLT]; exact mem_positions.mpr ⟨hTi, hTj⟩
  have huB : ∀ q ∈ positions B.size, q ≠ (bi, bj) → B.cell q.1 q.2 ≠ 0 := by
    intro q hq hne hcon
    exact cell_inj_of_valid B hB hq hBmem hne (hcon.trans hBcell.symm)
  have huT : ∀ q ∈ positions B.size, q ≠ (ti, tj) → T.cell q.1 q.2 ≠ 0 := by
    intro q hq hne hcon
    refine cell_inj_of_valid T hT ?_ ?_ hne (hcon.trans hTcell.symm)
    · rw [hLT]; exact hq
    · rw [hLT]; exact hTmem
  rw [diffCount_eq_countP, diffCount_eq_countP, hLT]
  have hsplitB := countP_and_split
    (fun p : Nat × Nat => B.cell p.1 p.2 == 0)
    (fun p : Nat × Nat => B.cell p.1 p.2 != T.cell p.1 p.2) (positions B.size)
  have hsplitT := countP_and_split
    (fun p : Nat × Nat => T.cell p.1 p.2 == 0)
    (fun p : Nat × Nat => T.cell p.1 p.2 != B.cell p.1 p.2) (positions B.size)
  have hMcomm : (positions B.size).countP
        (fun p : Nat × Nat => T.cell p.1 p.2 != B.cell p.1 p.2)
      = (positions B.size).countP
        (fun p : Nat × Nat => B.cell p.1 p.2 != T.cell p.1 p.2) := by
    apply List.countP_congr
    intro p _
    simp only [bne_iff_ne]
    exact ⟨Ne.symm, Ne.symm⟩
  have hsingleB : (positions B.size).countP
        (fun p : Nat × Nat =>
          (B.cell p.1 p.2 == 0) && (B.cell p.1 p.2 != T.cell p.1 p.2))
      = if (B.cell bi bj == 0) && (B.cell bi bj != T.cell bi bj) then 1 else 0 := by
    refine countP_eq_single _ (positions_nodup _) _ (bi, bj) hBmem ?_
    intro q hq hne
    have := huB q hq hne
    simp [beq_eq_false_iff_ne.mpr this]
  have hsingleT : (positions B.size).countP
        (fun p : Nat × Nat =>
          (T.cell p.1 p.2 == 0) && (T.cell p.1 p.2 != B.cell p.1 p.2))
      = if (T.cell ti tj == 0) && (T.cell ti tj != B.cell ti tj) then 1 else 0 := by
    refine countP_eq_single _ (positions_nodup _) _ (ti, tj) hTmem ?_
    intro q hq hne
    have := huT q hq hne
    simp [beq_eq_false_iff_ne.mpr this]
  have hvalB : (if (B.cell bi bj == 0) && (B.cell bi bj != T.cell bi bj) then 1 else 0)
      = if (bi, bj) = (ti, tj) then 0 else 1 := by
    by_cases hpp : (bi, bj) = (ti, tj)
    · have : T.cell bi bj = 0 := by
        rw [show bi = ti from congrArg Prod.fst hpp,
          show bj = tj from congrArg Prod.snd hpp]
        exact hTcell
      rw [if_pos hpp, hBcell, this]
      rfl
    · have : T.cell bi bj ≠ 0 := huT (bi, bj) hBmem hpp
      rw [if_neg hpp, hBcell]
      simp [bne_iff_ne.mpr (Ne.symm this)]
  have hvalT : (if (T.cell ti tj == 0) && (T.cell ti tj != B.cell ti tj) then 1 else 0)
      = if (bi, bj) = (ti, tj) then 0 else 1 := by
    by_cases hpp : (bi, bj) = (ti, tj)
    · have : B.cell ti tj = 0 := by
        rw [← show bi = ti from congrArg Prod.fst hpp,
          ← show bj = tj from congrArg Prod.snd hpp]
        exact hBcell
      rw [if_pos hpp, hTcell, this]
      rfl
    · have : B.cell ti tj ≠ 0 := huB (ti, tj) hTmem (fun h => hpp h.symm)
      rw [if_neg hpp, hTcell]
      simp [bne_iff_ne.mpr (Ne.symm this)]
  have e1 : (positions B.size).countP (diffPred B T)
      = (positions B.size).countP
          (fun p : Nat × Nat => B.cell p.1 p.2 != T.cell p.1 p.2)
        - (if (bi, bj) = (ti, tj) then 0 else 1) := by
    have hd : (positions B.size).countP (diffPred B T)
        = (positions B.size).countP
            (fun p : Nat × Nat =>
              !(B.cell p.1 p.2 == 0) && (B.cell p.1 p.2 != T.cell p.1 p.2)) := rfl
    rw [hd]
    omega
  have e2 : (positions B.size).countP (diffPred T B)
      = (positions B.size).countP
          (fun p : Nat × Nat => B.cell p.1 p.2 != T.cell p.1 p.2)
        - (if (bi, bj) = (ti, tj) then 0 else 1) := by
    have hd : (positions B.size).countP (diffPred T B)
        = (positions B.size).countP
            (fun p : Nat × Nat =>
              !(T.cell p.1 p.2 == 0) && (T.cell p.1 p.2 != B.cell p.1 p.2)) := rfl
    rw [hd]
    omega
  rw [e1, e2]

/-- C10 amended: the blank exclusion does apply only to the receiver
board (on well-formed non-permutation grids DiffN is asymmetric, as the
1 x 1 grids holding 0 and 5 show), but on valid permutation boards of
equal size the two exclusions cancel exactly and DiffN is symmetric —
so the two directions differ by at most 1, indeed by 0, and no valid
pair witnesses an inequality. -/
theorem C10_diffN_symmetry :
    (∀ B T : Board, ValidBoard B → ValidBoard T → B.size = T.size →
      DiffN B T = DiffN T B) ∧
    DiffN { size := 1, state := [[0]] } { size := 1, state := [[5]] } = some 0 ∧
    DiffN { size := 1, state := [[5]] } { size := 1, state := [[0]] } = some 1 := by
  refine ⟨?_, by decide, by decide⟩
  intro B T hB hT hsz
  rw [DiffN, DiffN, if_pos hsz, if_pos hsz.symm,
    diffCount_comm_of_valid B T hB hT hsz]

/-- C10 counterexample to the claim as stated: no pair of equal-size
valid boards makes DiffN asymmetric — the claimed existence is false. -/
theorem C10_diffN_no_asymmetric_valid_pair :
    ¬ ∃ B T : Board, ValidBoard B ∧ ValidBoard T ∧ B.size = T.size ∧
      DiffN B T ≠ DiffN T B := by
  rintro ⟨B, T, hB, hT, hsz, hne⟩
  exact hne (by
    rw [DiffN, DiffN, if_pos hsz, if_pos hsz.symm,
      diffCount_comm_of_valid B T hB hT hsz])

/-- Witness for C10 at a concrete valid pair. -/
theorem C10_diffN_symmetry_witness :
    DiffN { size := 2, state := [[1, 0], [2, 3]] } (NewBoard 2)
      = DiffN (NewBoard 2) { size := 2, state := [[1, 0], [2, 3]] } :=
  C10_diffN_symmetry.1 _ _ (by decide) (by decide) rfl
